import Mathlib

/-!
Verification development for the project2tree repository
(src/code_summarizer.py and src/tree_visualizer.py).

The Python code is shallowly embedded below.  Paths and summaries are
Lean `String`s; Python character-level operations are modelled on the
underlying `List Char` (a Python `str` is a sequence of code points).
Python dicts are modelled as insertion-ordered association lists, and
functions that can raise an exception return `Option`.
-/

/-! ## Character-level string helpers

Python primitives used by the code: `str.split(sep)`, `str.strip()`,
`str.replace('\n', ' | ')`, `str.startswith`, `str.endswith`.
-/

/-- Python `s.split('/')` on the code-point list: split on every occurrence
of the separator, keeping empty chunks, with `[""]` for the empty string. -/
def splitSepChars : List Char → List (List Char)
  | [] => [[]]
  | c :: rest =>
    if c = '/' then [] :: splitSepChars rest
    else
      match splitSepChars rest with
      | [] => [[c]]
      | h :: t => (c :: h) :: t

/-- Inverse of `splitSepChars`: interleave `'/'` between the chunks
(Python `'/'.join`). -/
def joinSep : List (List Char) → List Char
  | [] => []
  | [x] => x
  | x :: y :: rest => x ++ '/' :: joinSep (y :: rest)

/-- Path split `file_path.split(os.sep)` with `os.sep = '/'`
(code_summarizer.py line 297). -/
def pathParts (s : String) : List String :=
  (splitSepChars s.data).map (fun cs => String.mk cs)

/-- Join path segments with the path separator. -/
def joinParts (l : List String) : String :=
  String.mk (joinSep (l.map String.data))

/-- Whitespace characters removed by Python `str.strip()` (the ASCII ones;
the code never feeds it other Unicode spaces). -/
def pySpace (c : Char) : Bool :=
  c = ' ' || c = '\t' || c = '\n' || c = '\r' || c = '\x0b' || c = '\x0c'

/-- Python `s.strip()`: drop leading and trailing whitespace. -/
def pyStrip (s : String) : String :=
  String.mk (((s.data.dropWhile pySpace).reverse.dropWhile pySpace).reverse)

/-! ## IgnoreFilter: fnmatch and `_should_ignore`

`fnmatch.fnmatch(name, pattern)` translates the glob pattern and matches
the whole name.  The pattern language: `*` matches any sequence,
`?` any single character, `[...]` a character class (`[!...]` negated,
`a-b` ranges; a `[` with no closing `]` is a literal `[`, and a `]`
immediately after `[` or `[!` belongs to the class body).
-/

/-- Glob pattern tokens, mirroring the alternatives of
`fnmatch.translate`. -/
inductive GlobTok where
  | star : GlobTok
  | any : GlobTok
  | lit : Char → GlobTok
  | cls : Bool → List Char → GlobTok
deriving DecidableEq

/-- Character-class membership: ranges `a-b` plus literal characters. -/
def inClass : List Char → Char → Bool
  | [], _ => false
  | a :: '-' :: b :: rest, c => (a ≤ c && c ≤ b) || inClass rest c
  | a :: rest, c => (a == c) || inClass rest c

/-- Scan for the closing `]` of a character class: returns the class body
and the remainder after the `]`, or `none` when there is no `]`. -/
def findClose : List Char → Option (List Char × List Char)
  | [] => none
  | ']' :: rest => some ([], rest)
  | c :: rest => (findClose rest).map (fun p => (c :: p.1, p.2))

/-- Parse what follows a `[`: optional negation `!`, a `]` directly after
`[` or `[!` is part of the body.  Returns (negated, body, remainder). -/
def parseClass (l : List Char) : Option (Bool × List Char × List Char) :=
  match l with
  | '!' :: ']' :: rest => (findClose rest).map (fun p => (true, ']' :: p.1, p.2))
  | '!' :: rest => (findClose rest).map (fun p => (true, p.1, p.2))
  | ']' :: rest => (findClose rest).map (fun p => (false, ']' :: p.1, p.2))
  | rest => (findClose rest).map (fun p => (false, p.1, p.2))

/-- Tokenize a glob pattern.  The `Nat` fuel is initialized with the
pattern length; each step consumes at least one character, so the fuel
never runs out on the initial call. -/
def tokenizeAux : Nat → List Char → List GlobTok
  | _, [] => []
  | 0, _ :: _ => []
  | fuel + 1, '*' :: rest => .star :: tokenizeAux fuel rest
  | fuel + 1, '?' :: rest => .any :: tokenizeAux fuel rest
  | fuel + 1, '[' :: rest =>
    (match parseClass rest with
     | some (neg, body, rest2) => .cls neg body :: tokenizeAux fuel rest2
     | none => .lit '[' :: tokenizeAux fuel rest)
  | fuel + 1, c :: rest => .lit c :: tokenizeAux fuel rest

/-- Tokenized form of a glob pattern. -/
def tokenize (l : List Char) : List GlobTok := tokenizeAux l.length l

/-- Match a token list against a character list (full match, as
`fnmatch`'s compiled regex anchors both ends).  The fuel is initialized
above the sum of both lengths, which each step decreases. -/
def matchToksAux : Nat → List GlobTok → List Char → Bool
  | 0, _, _ => false
  | _ + 1, [], s => s.isEmpty
  | fuel + 1, .star :: ts, [] => matchToksAux fuel ts []
  | fuel + 1, .star :: ts, c :: cs =>
    matchToksAux fuel ts (c :: cs) || matchToksAux fuel (.star :: ts) cs
  | _ + 1, .any :: _, [] => false
  | fuel + 1, .any :: ts, _ :: cs => matchToksAux fuel ts cs
  | _ + 1, .lit _ :: _, [] => false
  | fuel + 1, .lit a :: ts, c :: cs => (a == c) && matchToksAux fuel ts cs
  | _ + 1, .cls _ _ :: _, [] => false
  | fuel + 1, .cls neg body :: ts, c :: cs =>
    (inClass body c != neg) && matchToksAux fuel ts cs

/-- Python `fnmatch.fnmatch(name, pat)` (POSIX case: `normcase` is the
identity). -/
def fnmatch (name pat : String) : Bool :=
  let toks := tokenize pat.data
  matchToksAux (toks.length + name.data.length + 1) toks name.data

/-- CodeSummarizer._should_ignore (code_summarizer.py lines 162-181),
taking the already-computed path relative to the root.  A path is ignored
when it fnmatch-matches a pattern, or a pattern ends with `'/'` and the
relative path starts with the pattern minus that trailing separator.
The Python pattern set is modelled as a list; `any` is order-insensitive. -/
def should_ignore (ignorePatterns : List String) (relativePath : String) : Bool :=
  ignorePatterns.any (fun pattern =>
    fnmatch relativePath pattern ||
    (pattern.data.getLast? == some '/' &&
      relativePath.data.take pattern.data.dropLast.length == pattern.data.dropLast))

/-! ## is_text_file -/

/-- Split a file name at its last dot: `some (before, after)` with
`name = before ++ '.' :: after` and `after` dot-free. -/
def splitLastDot : List Char → Option (List Char × List Char)
  | [] => none
  | c :: rest =>
    match splitLastDot rest with
    | some (p, q) => some (c :: p, q)
    | none => if c = '.' then some ([], rest) else none

/-- Python `pathlib.PurePath(name).suffix`: the final `.ext` when the last
dot is neither the first nor the last character of the name, else `""`. -/
def pathSuffix (name : String) : String :=
  match splitLastDot name.data with
  | some (p, q) => if p ≠ [] && q ≠ [] then String.mk ('.' :: q) else ""
  | none => ""

/-- Allow-list of text-file extensions
(code_summarizer.py lines 193-197). -/
def text_extensions : List String :=
  [".py", ".js", ".ts", ".java", ".cpp", ".h", ".cs", ".go",
   ".rb", ".php", ".swift", ".kt", ".rs", ".md", ".txt", ".json",
   ".xml", ".yaml", ".yml", ".html", ".css", ".scss", ".less"]

/-- Python `str.lower()` on the code-point list (the suffixes fed to it
are ASCII). -/
def pyToLower (s : String) : String :=
  String.mk (s.data.map Char.toLower)

/-- CodeSummarizer.is_text_file (code_summarizer.py lines 183-198):
the lower-cased suffix must belong to the allow-list. -/
def is_text_file (name : String) : Bool :=
  text_extensions.contains (pyToLower (pathSuffix name))

/-! ## Summarizer: get_code_summary retry loop

The external API call is modelled as an oracle `Nat → ApiOutcome` giving
the outcome of each attempt: `ok response` for a returned message content
or `err` for any raised exception.  Besides the result, the embedding
returns the observable event trace (attempts made, sleeps performed).
-/

/-- Outcome of one call to the chat-completion API. -/
inductive ApiOutcome where
  | ok : String → ApiOutcome
  | err : ApiOutcome

/-- Observable events of the retry loop: an attempt with its index, or a
sleep of a number of seconds. -/
inductive Ev where
  | att : Nat → Ev
  | sleep : Nat → Ev
deriving DecidableEq

/-- One pass of `for attempt in range(max_retries)`
(code_summarizer.py lines 239-263), recursing on the number of remaining
iterations.  An `ok` response is stripped; a non-blank summary returns
immediately, a blank one sleeps and retries.  An exception sleeps and
retries unless this was the last attempt.  Falling off the loop returns
`none` (line 265). -/
def retryLoop (api : Nat → ApiOutcome) (maxRetries retryDelay : Nat) :
    Nat → Nat → Option String × List Ev
  | 0, _ => (none, [])
  | remaining + 1, attempt =>
    match api attempt with
    | .ok resp =>
      let summary := pyStrip resp
      if summary ≠ "" then (some summary, [.att attempt])
      else
        let r := retryLoop api maxRetries retryDelay remaining (attempt + 1)
        (r.1, .att attempt :: .sleep retryDelay :: r.2)
    | .err =>
      if attempt < maxRetries - 1 then
        let r := retryLoop api maxRetries retryDelay remaining (attempt + 1)
        (r.1, .att attempt :: .sleep retryDelay :: r.2)
      else (none, [.att attempt])

/-- CodeSummarizer.get_code_summary (code_summarizer.py lines 217-265):
run the retry loop from attempt 0, for `maxRetries` iterations. -/
def get_code_summary (api : Nat → ApiOutcome) (maxRetries retryDelay : Nat) :
    Option String × List Ev :=
  retryLoop api maxRetries retryDelay maxRetries 0

/-- An attempt fails in the sense of the retry loop: the call raised, or
its stripped response is blank. -/
def attemptFails : ApiOutcome → Prop
  | .err => True
  | .ok resp => pyStrip resp = ""

/-- Whether an outcome is a raised exception (decides the missing
trailing sleep on the last attempt). -/
def isErr : ApiOutcome → Bool
  | .err => true
  | .ok _ => false

/-- Whether an event is an attempt. -/
def isAttempt : Ev → Bool
  | .att _ => true
  | .sleep _ => false

/-! ## Traversal: process_directory

The filesystem is a rose tree.  Mirroring what `os.walk` yields, a
directory holds its files as `(name, content)` pairs — `content = none`
models an unreadable file (`read_file_content` returning None) — and its
subdirectories as a nested list.  `should_ignore` receives paths already
relative to the traversal root, built by joining the segments walked so
far.
-/

mutual
inductive FSDir where
  | mkdir : List (String × Option String) → FSEntries → FSDir
inductive FSEntries where
  | enil : FSEntries
  | econs : String → FSDir → FSEntries → FSEntries
end

/-- Path of an entry `name` inside the directory reached by `segs`,
relative to the traversal root (what `os.path.relpath(os.path.join(root,
...), root)` yields). -/
def relPath (segs : List String) (name : String) : String :=
  joinParts (segs ++ [name])

/-- Python dict assignment `d[k] = v` on an association list: overwrite
in place if the key exists, else append. -/
def putEntry (l : List (String × String)) (k v : String) : List (String × String) :=
  match l with
  | [] => [(k, v)]
  | (k0, v0) :: rest => if k0 = k then (k0, v) :: rest else (k0, v0) :: putEntry rest k v

/-- The candidate test of the file loop (code_summarizer.py line 277):
not ignored, and a text file by extension. -/
def candidate (ig : List String) (segs : List String) (name : String) : Bool :=
  !should_ignore ig (relPath segs name) && is_text_file name

/-- Body of the file loop of process_directory (code_summarizer.py lines
275-285): for a candidate file, read (an unreadable or falsy-empty
content is skipped), summarize (`sm content path`), and record a truthy
summary under the relative path. -/
def processFile (ig : List String) (sm : String → String → Option String)
    (segs : List String) (name : String) (content : Option String)
    (acc : List (String × String)) : List (String × String) :=
  if candidate ig segs name then
    match content with
    | none => acc
    | some c =>
      if c ≠ "" then
        match sm c (relPath segs name) with
        | some summary => if summary ≠ "" then putEntry acc (relPath segs name) summary else acc
        | none => acc
      else acc
  else acc

/-- The recursive part of CodeSummarizer.process_directory
(code_summarizer.py lines 267-285): walk a sibling list of
subdirectories, in `os.walk` order.  A subdirectory whose relative path
is ignored is pruned (the in-place filter
`dirs[:] = [d for d in dirs if not self._should_ignore(...)]` of line
273; `should_ignore` is pure, so filtering before the loop and testing
at descent time coincide).  A kept subdirectory first has its own files
handled by the file loop, then its subdirectories, then the walk moves
to the next sibling. -/
def walkEntries (ig : List String) (sm : String → String → Option String) :
    List String → FSEntries → List (String × String) → List (String × String)
  | _, .enil, acc => acc
  | segs, .econs name (.mkdir files subdirs) rest, acc =>
    if should_ignore ig (relPath segs name) then walkEntries ig sm segs rest acc
    else
      walkEntries ig sm segs rest
        (walkEntries ig sm (segs ++ [name]) subdirs
          (files.foldl (fun a f => processFile ig sm (segs ++ [name]) f.1 f.2 a) acc))

/-- CodeSummarizer.process_directory (code_summarizer.py lines 267-285)
started at the traversal root: the root directory itself is never
filtered; its files are handled first, then its subdirectory tree. -/
def process_directory (ig : List String) (sm : String → String → Option String)
    (root : FSDir) (acc : List (String × String)) : List (String × String) :=
  match root with
  | .mkdir files subdirs =>
    walkEntries ig sm [] subdirs
      (files.foldl (fun a f => processFile ig sm [] f.1 f.2 a) acc)

/-- Concatenation of sibling lists (used to place a directory at an
arbitrary position among its siblings). -/
def eappend : FSEntries → FSEntries → FSEntries
  | .enil, b => b
  | .econs n d rest, b => .econs n d (eappend rest b)

/-! ## TreeBuilder: generate_tree_structure

The nested JSON value: a leaf summary string, or a node whose children
are an insertion-ordered mapping from path segment to subtree.
-/

mutual
inductive STree where
  | leaf : String → STree
  | node : Children → STree
deriving DecidableEq
inductive Children where
  | cnil : Children
  | ccons : String → STree → Children → Children
deriving DecidableEq
end

/-- Dict lookup `current[part]` / `part in current` on a children map. -/
def lookupKey : Children → String → Option STree
  | .cnil, _ => none
  | .ccons k v rest, key => if k = key then some v else lookupKey rest key

/-- Dict assignment `current[part] = v` on a children map: overwrite in
place, else append. -/
def setKey : Children → String → STree → Children
  | .cnil, key, val => .ccons key val .cnil
  | .ccons k v rest, key, val =>
    if k = key then .ccons k val rest else .ccons k v (setKey rest key val)

/-- One iteration of the insertion loop of generate_tree_structure
(code_summarizer.py lines 296-305): walk/create the intermediate nodes
for every segment but the last, then assign the summary at the last
segment.  When the walk reaches a leaf (a string), the following Python
subscript raises TypeError; this is modelled by `none`. -/
def insertParts (c : Children) : List String → String → Option Children
  | [], _ => none
  | [last], s => some (setKey c last (.leaf s))
  | part :: next :: rest, s =>
    match lookupKey c part with
    | none => (insertParts .cnil (next :: rest) s).map (fun sub => setKey c part (.node sub))
    | some (.node ch) => (insertParts ch (next :: rest) s).map (fun sub => setKey c part (.node sub))
    | some (.leaf _) => none

/-- The insertion loop over all (path-segments, summary) pairs; a raised
TypeError aborts the whole call. -/
def buildTreeAux : Children → List (List String × String) → Option Children
  | c, [] => some c
  | c, (parts, s) :: rest =>
    match insertParts c parts s with
    | some c2 => buildTreeAux c2 rest
    | none => none

/-- CodeSummarizer.generate_tree_structure (code_summarizer.py lines
287-307): split each recorded path on the separator and insert into an
initially empty tree, in insertion order of the flat mapping. -/
def generate_tree_structure (summaries : List (String × String)) : Option Children :=
  buildTreeAux .cnil (summaries.map (fun p => (pathParts p.1, p.2)))

mutual
/-- Leaf count of one subtree. -/
def countLeavesT : STree → Nat
  | .leaf _ => 1
  | .node ch => countLeaves ch
termination_by structural t => t
/-- Number of leaves of a children map. -/
def countLeaves : Children → Nat
  | .cnil => 0
  | .ccons _ t rest => countLeavesT t + countLeaves rest
termination_by structural c => c
end

mutual
/-- Leaf paths contributed by one entry `(k, t)` of a children map:
each is `k` followed by a path inside `t`. -/
def contrib (k : String) : STree → List (List String)
  | .leaf _ => [[k]]
  | .node ch => (flat ch).map (fun q => k :: q)
termination_by structural t => t
/-- Depth-first flattening: the list of segment paths of all leaves. -/
def flat : Children → List (List String)
  | .cnil => []
  | .ccons k t rest => contrib k t ++ flat rest
termination_by structural c => c
end

/-- The single-branch tree produced by inserting one path into an empty
dict: nested singleton nodes ending in a leaf. -/
def chain : List String → String → Children
  | [], _ => .cnil
  | [k], s => .ccons k (.leaf s) .cnil
  | k :: next :: rest, s => .ccons k (.node (chain (next :: rest) s)) .cnil

/-! ## TreeRenderer and visualizer -/

/-- Whether a children map is empty (Python falsiness of the dict). -/
def isNil : Children → Bool
  | .cnil => true
  | .ccons _ _ _ => false

/-- Flattening of a leaf summary for one-line display
(tree_visualizer.py line 59): `value.strip().replace('\n', ' | ')`,
performed on the code points. -/
def replaceNl : List Char → List Char
  | [] => []
  | c :: rest => if c = '\n' then ' ' :: '|' :: ' ' :: replaceNl rest else c :: replaceNl rest

/-- The flattened summary: strip, then replace every line break. -/
def flattenSummary (v : String) : String :=
  String.mk (replaceNl (pyStrip v).data)

/-- TreeVisualizer._visualize_tree_recursive (tree_visualizer.py lines
31-62): the text written for a children map under prefix `pre`.  The
connector depends on being the last sibling; directories get a `/` and a
recursive call with an extended prefix; files get the flattened summary
on the same line. -/
def renderChildren : Children → String → String
  | .cnil, _ => ""
  | .ccons k v rest, pre =>
    (match v with
     | .node ch =>
       pre ++ (if isNil rest then "└── " else "├── ") ++ k ++ "/\n" ++
         renderChildren ch (pre ++ (if isNil rest then "    " else "│   "))
     | .leaf s =>
       pre ++ (if isNil rest then "└── " else "├── ") ++ k ++ "    " ++
         flattenSummary s ++ "\n") ++
    renderChildren rest pre

/-- TreeVisualizer.load_json (tree_visualizer.py lines 17-29): the
I/O-and-parse outcome is a parameter; any exception is caught and the
empty dict returned. -/
def load_json (result : Except String Children) : Children :=
  match result with
  | .ok data => data
  | .error _ => .cnil

/-- Header written by both output paths (tree_visualizer.py lines 75-76
and 92-93). -/
def headerText : String :=
  "代碼摘要樹狀結構\n==============\n\n"

/-- TreeVisualizer.visualize (tree_visualizer.py lines 64-81): the text
written to the output file, or `none` when the loaded data is falsy and
the method returns before the file is opened. -/
def visualizeFileText (result : Except String Children) : Option String :=
  let data := load_json result
  if isNil data then none
  else some (headerText ++ renderChildren data "")

/-- TreeVisualizer.print_tree (tree_visualizer.py lines 83-99): the text
printed to standard output.  Each `print` call appends one newline, in
particular `print(output.getvalue())` appends one after the rendered
tree. -/
def printTreeText (result : Except String Children) : String :=
  let data := load_json result
  if isNil data then "無數據可視化\n"
  else "代碼摘要樹狀結構\n" ++ "==============\n" ++ "\n" ++
    renderChildren data "" ++ "\n"

/-! ## Claim-side predicates (preconditions of the claims, stated as
executable functions so that witnesses can evaluate them) -/

/-- Segment-list p is an initial segment of q (equality allowed). -/
def lstarts : List String → List String → Bool
  | [], _ => true
  | _ :: _, [] => false
  | a :: as, b :: bs => (a == b) && lstarts as bs

/-- No segment path in the list is an initial segment of another (which
also forces the paths to be pairwise distinct). -/
def noConflicts : List (List String) → Bool
  | [] => true
  | p :: rest => rest.all (fun q => !lstarts p q && !lstarts q p) && noConflicts rest

/-! ## General lemmas -/

/-- The newline-replacement leaves no newline behind. -/
theorem replaceNl_no_newline (l : List Char) : '\n' ∉ replaceNl l := by
  induction l with
  | nil => simp [replaceNl]
  | cons c rest ih =>
    simp only [replaceNl]
    split
    · simp only [List.mem_cons]
      push_neg
      exact ⟨by decide, by decide, by decide, ih⟩
    · rename_i hc
      simp only [List.mem_cons]
      push_neg
      exact ⟨fun h => hc h.symm, ih⟩

/-! ## Claim C1 -/

/-- Claim C1: for every rule set R and relative path, `should_ignore`
returns true if and only if the relative path fnmatch-matches some rule
in R, or some rule ends with a path separator and the relative path
starts with that rule minus its trailing separator. -/
theorem claim1_should_ignore_iff (R : List String) (rel : String) :
    should_ignore R rel = true ↔
      ∃ pat ∈ R, fnmatch rel pat = true ∨
        (pat.data.getLast? = some '/' ∧ pat.data.dropLast <+: rel.data) := by
  simp only [should_ignore, List.any_eq_true, Bool.or_eq_true, Bool.and_eq_true,
    beq_iff_eq]
  constructor
  · rintro ⟨pat, hmem, h | ⟨h1, h2⟩⟩
    · exact ⟨pat, hmem, Or.inl h⟩
    · exact ⟨pat, hmem, Or.inr ⟨h1, List.prefix_iff_eq_take.mpr h2.symm⟩⟩
  · rintro ⟨pat, hmem, h | ⟨h1, h2⟩⟩
    · exact ⟨pat, hmem, Or.inl h⟩
    · exact ⟨pat, hmem, Or.inr ⟨h1, (List.prefix_iff_eq_take.mp h2).symm⟩⟩

/-! ## Claim C6 -/

/-- Claim C6: a leaf summary is emitted on one output line as prefix,
connector, key, four spaces, and the flattened summary (strip, then
every line break replaced by the separator); the flattened summary
contains no line break, and the summary of the claim's concrete example
flattens to its expected one-line form. -/
theorem claim6_leaf_rendering (pre k v : String) (rest : Children) :
    renderChildren (.ccons k (.leaf v) rest) pre =
      pre ++ (if isNil rest then "└── " else "├── ") ++ k ++ "    " ++
        flattenSummary v ++ "\n" ++ renderChildren rest pre
    ∧ '\n' ∉ (flattenSummary v).data
    ∧ flattenSummary "line1\nline2\n" = "line1 | line2" := by
  refine ⟨rfl, ?_, by decide⟩
  exact replaceNl_no_newline (pyStrip v).data

/-! ## Claim C9 -/

/-- Claim C9: a file whose read yields the empty string is skipped with
no entry added, for every summarization oracle (so no summarization
attempt can influence the result), and indistinguishably from a file
whose read failed. -/
theorem claim9_empty_content_skipped (ig : List String)
    (sm : String → String → Option String) (segs : List String)
    (name : String) (acc : List (String × String)) :
    processFile ig sm segs name (some "") acc = acc
    ∧ processFile ig sm segs name (some "") acc =
        processFile ig sm segs name none acc := by
  constructor <;> · cases h : candidate ig segs name <;> simp [processFile, h]

/-! ## Claim C10 -/

/-- Claim C10: when loading the JSON input fails, `load_json` returns
the empty tree, indistinguishable from a successfully loaded empty
object, and in both cases `visualize` returns (`none`: the output file
is never opened or written, so an existing file is left unchanged). -/
theorem claim10_failed_load_writes_nothing (msg : String) :
    load_json (.error msg) = Children.cnil
    ∧ load_json (.error msg) = load_json (.ok .cnil)
    ∧ visualizeFileText (.error msg) = none
    ∧ visualizeFileText (.ok .cnil) = none :=
  ⟨rfl, rfl, rfl, rfl⟩

/-! ## Claim C8 -/

/-- Claim C8: a file is selected as a candidate iff it is not ignored
and its lower-cased extension is in the fixed allow-list; a
non-candidate is skipped with no entry, whatever its content (there is
no content-based detection). -/
theorem claim8_candidate_iff (ig : List String) (segs : List String)
    (name : String) (sm : String → String → Option String)
    (content : Option String) (acc : List (String × String)) :
    (candidate ig segs name = true ↔
      (should_ignore ig (relPath segs name) = false ∧
        pyToLower (pathSuffix name) ∈ text_extensions))
    ∧ (candidate ig segs name = false →
        processFile ig sm segs name content acc = acc) := by
  constructor
  · simp [candidate, is_text_file, Bool.and_eq_true, Bool.not_eq_true']
  · intro h
    simp [processFile, h]

/-! ## Claim C7 -/

/-- Claim C7 counterexample: on the one-leaf tree, the file-writing
variant writes the header plus one rendered line, while the console
variant prints the same text followed by one extra newline (appended by
the final print of the captured buffer), so the two texts differ. -/
theorem claim7_counterexample :
    visualizeFileText (.ok (.ccons "a.py" (.leaf "desc") .cnil)) =
      some "代碼摘要樹狀結構\n==============\n\n└── a.py    desc\n"
    ∧ printTreeText (.ok (.ccons "a.py" (.leaf "desc") .cnil)) =
      "代碼摘要樹狀結構\n==============\n\n└── a.py    desc\n\n"
    ∧ ("代碼摘要樹狀結構\n==============\n\n└── a.py    desc\n" : String) ≠
      "代碼摘要樹狀結構\n==============\n\n└── a.py    desc\n\n" :=
  ⟨by decide, by decide, by decide⟩

/-- Claim C7 as amended: whenever the loaded data is non-empty (so the
file-writing variant writes at all), the console variant prints exactly
the file text followed by one extra trailing newline. -/
theorem claim7_amended (r : Except String Children)
    (h : isNil (load_json r) = false) :
    ∃ t, visualizeFileText r = some t ∧ printTreeText r = t ++ "\n" := by
  refine ⟨headerText ++ renderChildren (load_json r) "", ?_, ?_⟩
  · simp [visualizeFileText, h]
  · simp only [printTreeText, h, Bool.false_eq_true, if_false]
    rfl

/-- Witness for claim C7's amended theorem at a one-leaf tree. -/
theorem claim7_witness :
    isNil (load_json (.ok (.ccons "a.py" (.leaf "desc") .cnil))) = false
    ∧ ∃ t, visualizeFileText (.ok (.ccons "a.py" (.leaf "desc") .cnil)) = some t ∧
        printTreeText (.ok (.ccons "a.py" (.leaf "desc") .cnil)) = t ++ "\n" :=
  ⟨rfl, claim7_amended _ rfl⟩

/-! ## Claim C5 -/

/-- An ignored subdirectory anywhere in a sibling list is skipped whole:
the walk result is the same as without it, for every summarization
oracle and every content of the subtree. -/
theorem walkEntries_skip_ignored (ig : List String)
    (sm : String → String → Option String) (segs : List String)
    (name : String) (d : FSDir) (B : FSEntries)
    (h : should_ignore ig (relPath segs name) = true) :
    ∀ (A : FSEntries) (acc : List (String × String)),
      walkEntries ig sm segs (eappend A (.econs name d B)) acc =
        walkEntries ig sm segs (eappend A B) acc
  | .enil, acc => by
    cases d with
    | mkdir files subdirs => simp [eappend, walkEntries, h]
  | .econs n0 d0 rest, acc => by
    cases d0 with
    | mkdir f0 s0 =>
      simp only [eappend, walkEntries]
      split
      · exact walkEntries_skip_ignored ig sm segs name d B h rest acc
      · exact walkEntries_skip_ignored ig sm segs name d B h rest _

/-- Claim C5: a directory whose relative path matches an ignore rule is
never descended into: wherever it sits among its siblings, the traversal
result is identical to the traversal without that directory, for every
summarization oracle and every subtree content, so no file inside it is
ever read, summarized, or recorded. -/
theorem claim5_pruned_subtree (ig : List String)
    (sm : String → String → Option String) (segs : List String)
    (name : String) (d : FSDir) (A B : FSEntries)
    (acc : List (String × String))
    (h : should_ignore ig (relPath segs name) = true) :
    walkEntries ig sm segs (eappend A (.econs name d B)) acc =
      walkEntries ig sm segs (eappend A B) acc :=
  walkEntries_skip_ignored ig sm segs name d B h A acc

/-- Witness for claim C5: a gitignore-style directory rule prunes a
subtree containing a summarizable file. -/
theorem claim5_witness :
    should_ignore ["node_modules/"] (relPath [] "node_modules") = true
    ∧ walkEntries ["node_modules/"] (fun _ _ => some "S") []
        (eappend .enil (.econs "node_modules"
          (.mkdir [("x.py", some "code")] .enil) .enil)) [] =
      walkEntries ["node_modules/"] (fun _ _ => some "S") []
        (eappend .enil .enil) [] :=
  ⟨by decide, claim5_pruned_subtree ["node_modules/"] (fun _ _ => some "S") []
    "node_modules" (.mkdir [("x.py", some "code")] .enil) .enil .enil [] (by decide)⟩

/-! ## Claim C4 -/

/-- The retry loop under an all-failing oracle, from any attempt index:
it returns `none`, and its event trace lists every remaining attempt,
with a sleep after each one except after a last attempt that raised. -/
theorem retryLoop_all_fail (api : Nat → ApiOutcome) (mR rD : Nat)
    (hfail : ∀ i, i < mR → attemptFails (api i)) :
    ∀ (remaining attempt : Nat), attempt + remaining = mR →
      retryLoop api mR rD remaining attempt =
        (none, (List.range' attempt remaining).flatMap (fun i =>
          Ev.att i :: (if isErr (api i) && (i + 1 == mR) then [] else [Ev.sleep rD])))
  | 0, attempt => by
    intro _
    simp [retryLoop]
  | remaining + 1, attempt => by
    intro hsum
    have hlt : attempt < mR := by omega
    have hrec := retryLoop_all_fail api mR rD hfail remaining (attempt + 1) (by omega)
    rw [List.range'_succ, List.flatMap_cons]
    cases hapi : api attempt with
    | ok resp =>
      have hblank : pyStrip resp = "" := by
        have := hfail attempt hlt
        rw [hapi] at this
        exact this
      simp [retryLoop, hapi, hblank, hrec, isErr]
    | err =>
      by_cases hlast : attempt < mR - 1
      · have hne : (attempt + 1 == mR) = false := by
          simp only [beq_eq_false_iff_ne, ne_eq]
          omega
        simp [retryLoop, hapi, hlast, hrec, isErr, hne]
      · have hrem : remaining = 0 := by omega
        have heq : (attempt + 1 == mR) = true := by
          simp only [beq_iff_eq]
          omega
        subst hrem
        simp [retryLoop, hapi, hlast, isErr, heq]

/-- Filtering the attempt events out of the all-fail trace leaves one
attempt per index. -/
theorem filter_att_trace (api : Nat → ApiOutcome) (rD mR : Nat) :
    ∀ l : List Nat,
      ((l.flatMap (fun i => Ev.att i ::
          (if isErr (api i) && (i + 1 == mR) then [] else [Ev.sleep rD]))).filter
        isAttempt) = l.map Ev.att
  | [] => rfl
  | i :: rest => by
    rw [List.flatMap_cons, List.filter_append, filter_att_trace api rD mR rest]
    split <;> simp [isAttempt]

/-- A per-file step whose summarization oracle always returns `none`
leaves the flat mapping unchanged. -/
theorem processFile_none (ig : List String) (segs : List String)
    (name : String) (content : Option String) (acc : List (String × String)) :
    processFile ig (fun _ _ => none) segs name content acc = acc := by
  cases h : candidate ig segs name <;> cases content <;> simp [processFile, h]

/-- The file loop of one directory, under an always-`none` oracle,
leaves the flat mapping unchanged. -/
theorem foldl_processFile_none (ig : List String) (segs : List String) :
    ∀ (files : List (String × Option String)) (acc : List (String × String)),
      files.foldl (fun a f => processFile ig (fun _ _ => none) segs f.1 f.2 a) acc = acc
  | [], _ => rfl
  | f :: rest, acc => by
    rw [List.foldl_cons, processFile_none, foldl_processFile_none ig segs rest]

/-- The whole walk under an always-`none` oracle records nothing. -/
theorem walkEntries_none (ig : List String) :
    ∀ (segs : List String) (es : FSEntries) (acc : List (String × String)),
      walkEntries ig (fun _ _ => none) segs es acc = acc
  | _, .enil, _ => rfl
  | segs, .econs name (.mkdir files subdirs) rest, acc => by
    simp only [walkEntries]
    split
    · exact walkEntries_none ig segs rest acc
    · rw [foldl_processFile_none ig (segs ++ [name]) files acc,
        walkEntries_none ig (segs ++ [name]) subdirs acc]
      exact walkEntries_none ig segs rest acc

/-- Claim C4: under an oracle whose every attempt fails (raises or is
blank after stripping), `get_code_summary` returns `none`; its trace
holds exactly `maxRetries` attempts, with a sleep of `retryDelay`
between consecutive attempts (and one after a final blank response);
and a run whose summarizations all return `none` records no entry and
completes over the whole directory tree. -/
theorem claim4_retry_exhaustion (api : Nat → ApiOutcome) (mR rD : Nat)
    (hfail : ∀ i, i < mR → attemptFails (api i)) :
    (get_code_summary api mR rD).1 = none
    ∧ ((get_code_summary api mR rD).2.filter isAttempt).length = mR
    ∧ (get_code_summary api mR rD).2 = (List.range mR).flatMap (fun i =>
        Ev.att i :: (if isErr (api i) && (i + 1 == mR) then [] else [Ev.sleep rD]))
    ∧ ∀ (ig : List String) (root : FSDir) (acc : List (String × String)),
        process_directory ig (fun _ _ => (get_code_summary api mR rD).1) root acc = acc := by
  have key := retryLoop_all_fail api mR rD hfail mR 0 (by omega)
  have h1 : (get_code_summary api mR rD).1 = none := by
    rw [get_code_summary, key]
  refine ⟨h1, ?_, ?_, ?_⟩
  · rw [get_code_summary, key]
    simp only [filter_att_trace api rD mR (List.range' 0 mR)]
    simp
  · rw [get_code_summary, key, List.range_eq_range' mR]
  · intro ig root acc
    simp only [h1]
    cases root with
    | mkdir files subdirs =>
      rw [process_directory, foldl_processFile_none ig [] files acc]
      exact walkEntries_none ig [] subdirs acc

/-- Witness for claim C4: three attempts against an always-raising
oracle, with delay 5. -/
theorem claim4_witness :
    (∀ i, i < 3 → attemptFails ((fun _ => ApiOutcome.err) i))
    ∧ (get_code_summary (fun _ => .err) 3 5).1 = none
    ∧ ((get_code_summary (fun _ => .err) 3 5).2.filter isAttempt).length = 3
    ∧ (get_code_summary (fun _ => .err) 3 5).2 =
        [.att 0, .sleep 5, .att 1, .sleep 5, .att 2] := by
  have pf : ∀ i, i < 3 → attemptFails ((fun _ => ApiOutcome.err) i) :=
    fun _ _ => trivial
  have h := claim4_retry_exhaustion (fun _ => .err) 3 5 pf
  refine ⟨pf, h.1, h.2.1, ?_⟩
  rw [h.2.2.1]
  decide

/-! ## Claim C3 -/

/-- Claim C3 counterexample: inserting the file path `a` and then the
deeper path `a/b` makes the insertion loop walk into the string stored
at `a`, and the following subscript assignment raises TypeError
(modelled by `none`): the build does not complete in the
file-then-directory order. -/
theorem claim3_counterexample :
    generate_tree_structure [("a", "S1"), ("a/b", "S2")] = none := by decide

/-- Inserting a path into the empty dict produces the single chain of
nested nodes ending in its leaf. -/
theorem insertParts_nil_chain (s : String) :
    ∀ (parts : List String), parts ≠ [] →
      insertParts .cnil parts s = some (chain parts s)
  | [k], _ => rfl
  | k :: next :: rest, _ => by
    simp only [insertParts, lookupKey]
    rw [insertParts_nil_chain s (next :: rest) (by simp)]
    rfl

/-- Inserting the shorter path after the longer one succeeds and
replaces the whole subtree by the new leaf. -/
theorem insertParts_chain_overwrite (s1 s2 : String) (q : List String)
    (hq : q ≠ []) :
    ∀ (p : List String), p ≠ [] →
      insertParts (chain (p ++ q) s2) p s1 = some (chain p s1)
  | [k], _ => by
    cases q with
    | nil => exact absurd rfl hq
    | cons qh qt => simp [chain, insertParts, setKey]
  | k :: next :: rest, _ => by
    have hstep := insertParts_chain_overwrite s1 s2 q hq (next :: rest) (by simp)
    simp only [List.cons_append] at hstep ⊢
    simp [chain, insertParts, lookupKey, hstep, setKey]

/-- Inserting the longer path after the shorter one hits the stored
leaf string while walking the intermediate segments and fails. -/
theorem insertParts_chain_clash (s1 s2 : String) (q : List String)
    (hq : q ≠ []) :
    ∀ (p : List String), p ≠ [] →
      insertParts (chain p s1) (p ++ q) s2 = none
  | [k], _ => by
    cases q with
    | nil => exact absurd rfl hq
    | cons qh qt => simp [chain, insertParts, lookupKey]
  | k :: next :: rest, _ => by
    have hstep := insertParts_chain_clash s1 s2 q hq (next :: rest) (by simp)
    simp only [List.cons_append] at hstep ⊢
    simp [chain, insertParts, lookupKey, hstep]

/-- The chain of one path has exactly that path as its only leaf. -/
theorem flat_chain (s : String) :
    ∀ (p : List String), p ≠ [] → flat (chain p s) = [p]
  | [k], _ => rfl
  | k :: next :: rest, _ => by
    simp only [chain, flat, contrib]
    rw [flat_chain s (next :: rest) (by simp)]
    rfl

/-- Claim C3 as amended: for a two-entry mapping whose first path
extends the second (segment-wise), the directory-then-file order
completes and the file leaf silently replaces the whole directory
subtree (last-write-wins, the tree keeps only the later path); the
file-then-directory order does not complete: it raises (modelled by
`none`) instead of resolving the conflict. -/
theorem claim3_amended (p q : List String) (s1 s2 : String)
    (hp : p ≠ []) (hq : q ≠ []) :
    buildTreeAux .cnil [(p ++ q, s2), (p, s1)] = some (chain p s1)
    ∧ flat (chain p s1) = [p]
    ∧ buildTreeAux .cnil [(p, s1), (p ++ q, s2)] = none := by
  have hpq : p ++ q ≠ [] := by simp [hp]
  refine ⟨?_, flat_chain s1 p hp, ?_⟩
  · simp [buildTreeAux, insertParts_nil_chain s2 (p ++ q) hpq,
      insertParts_chain_overwrite s1 s2 q hq p hp]
  · simp [buildTreeAux, insertParts_nil_chain s1 p hp,
      insertParts_chain_clash s1 s2 q hq p hp]

/-- Witness for claim C3's amended theorem at the paths `a` and `a/b`. -/
theorem claim3_witness :
    ((["a"] : List String) ≠ [] ∧ (["b"] : List String) ≠ [])
    ∧ buildTreeAux .cnil [(["a"] ++ ["b"], "S2"), (["a"], "S1")] =
        some (chain ["a"] "S1")
    ∧ flat (chain ["a"] "S1") = [["a"]]
    ∧ buildTreeAux .cnil [(["a"], "S1"), (["a"] ++ ["b"], "S2")] = none := by
  have h := claim3_amended ["a"] ["b"] "S1" "S2" (by decide) (by decide)
  exact ⟨⟨by decide, by decide⟩, h.1, h.2.1, h.2.2⟩

/-! ## Claim C2 -/

/-- Splitting never produces the empty chunk list. -/
theorem splitSepChars_ne_nil : ∀ l : List Char, splitSepChars l ≠ []
  | [] => by simp [splitSepChars]
  | c :: rest => by
    simp only [splitSepChars]
    split
    · simp
    · split <;> simp

/-- Joining the chunks with the separator recovers the original string
contents. -/
theorem joinSep_splitSepChars : ∀ l : List Char, joinSep (splitSepChars l) = l
  | [] => rfl
  | c :: rest => by
    have ih := joinSep_splitSepChars rest
    have hne := splitSepChars_ne_nil rest
    cases hsp : splitSepChars rest with
    | nil => exact absurd hsp hne
    | cons h t =>
      rw [hsp] at ih
      by_cases hc : c = '/'
      · subst hc
        show joinSep (splitSepChars ('/' :: rest)) = '/' :: rest
        rw [show splitSepChars ('/' :: rest) = [] :: splitSepChars rest from rfl, hsp]
        show ([] : List Char) ++ '/' :: joinSep (h :: t) = '/' :: rest
        rw [List.nil_append, ih]
      · simp only [splitSepChars, if_neg hc, hsp]
        cases t with
        | nil =>
          show c :: h = c :: rest
          rw [show joinSep [h] = h from rfl] at ih
          rw [ih]
        | cons h2 t2 =>
          show (c :: h) ++ '/' :: joinSep (h2 :: t2) = c :: rest
          rw [show joinSep (h :: h2 :: t2) = h ++ '/' :: joinSep (h2 :: t2) from rfl] at ih
          rw [List.cons_append, ih]

/-- Splitting a path and joining the segments with the separator is the
identity. -/
theorem joinParts_pathParts (s : String) : joinParts (pathParts s) = s := by
  rw [joinParts, pathParts, List.map_map]
  rw [show (String.data ∘ fun cs => String.mk cs) = id from rfl, List.map_id,
    joinSep_splitSepChars]

/-- A split path has at least one segment. -/
theorem pathParts_ne_nil (s : String) : pathParts s ≠ [] := by
  rw [pathParts]
  intro h
  rw [List.map_eq_nil_iff] at h
  exact splitSepChars_ne_nil s.data h

/-- Initial-segment comparison is reflexive. -/
theorem lstarts_refl : ∀ p : List String, lstarts p p = true
  | [] => rfl
  | _ :: as => by simp [lstarts, lstarts_refl as]

/-- Initial-segment comparison under a shared head. -/
theorem lstarts_cons (a : String) (as bs : List String) :
    lstarts (a :: as) (a :: bs) = lstarts as bs := by
  simp [lstarts]

/-- A one-segment path is an initial segment of any extension of it. -/
theorem lstarts_single (k : String) (x : List String) :
    lstarts [k] (k :: x) = true := by
  simp [lstarts]

mutual
/-- The leaf count of a subtree is the number of paths it contributes. -/
theorem countLeavesT_eq_length : ∀ (k : String) (t : STree),
    countLeavesT t = (contrib k t).length
  | _, .leaf _ => rfl
  | k, .node ch => by
    simp only [countLeavesT, contrib, List.length_map]
    exact countLeaves_eq_length ch
/-- The leaf count of a children map is the number of its leaf paths. -/
theorem countLeaves_eq_length : ∀ (c : Children),
    countLeaves c = (flat c).length
  | .cnil => rfl
  | .ccons k t rest => by
    simp only [countLeaves, flat, List.length_append]
    rw [countLeavesT_eq_length k t, countLeaves_eq_length rest]
end

/-- A key whose stored value is a leaf puts its one-segment path in the
flattening. -/
theorem mem_flat_of_lookup_leaf (k : String) (s0 : String) :
    ∀ c : Children, lookupKey c k = some (.leaf s0) → [k] ∈ flat c
  | .cnil, h => by simp [lookupKey] at h
  | .ccons k0 t rest, h => by
    rw [lookupKey] at h
    by_cases hk : k0 = k
    · rw [if_pos hk] at h
      injection h with h
      subst hk h
      simp [flat, contrib]
    · rw [if_neg hk] at h
      simp only [flat, List.mem_append]
      exact Or.inr (mem_flat_of_lookup_leaf k s0 rest h)

/-- A key whose stored value is a node prefixes every path of that
subtree in the flattening. -/
theorem mem_flat_of_lookup_node (k : String) (ch : Children) :
    ∀ c : Children, lookupKey c k = some (.node ch) →
      ∀ x ∈ flat ch, (k :: x) ∈ flat c
  | .cnil, h => by simp [lookupKey] at h
  | .ccons k0 t rest, h => by
    rw [lookupKey] at h
    by_cases hk : k0 = k
    · rw [if_pos hk] at h
      injection h with h
      subst hk h
      intro x hx
      simp only [flat, contrib, List.mem_append, List.mem_map]
      exact Or.inl ⟨x, hx, rfl⟩
    · rw [if_neg hk] at h
      intro x hx
      simp only [flat, List.mem_append]
      exact Or.inr (mem_flat_of_lookup_node k ch rest h x hx)

/-- Overwriting an absent key appends its contribution to the
flattening. -/
theorem setKey_flat_none (k : String) (v : STree) :
    ∀ c : Children, lookupKey c k = none →
      flat (setKey c k v) = flat c ++ contrib k v
  | .cnil, _ => by simp [setKey, flat]
  | .ccons k0 t rest, h => by
    rw [lookupKey] at h
    by_cases hk : k0 = k
    · rw [if_pos hk] at h
      exact absurd h (by simp)
    · rw [if_neg hk] at h
      simp only [setKey, if_neg hk, flat]
      rw [setKey_flat_none k v rest h, List.append_assoc]

/-- The flattening around a present key: the lists before and after its
contribution stay fixed when the key is overwritten. -/
theorem lookup_some_flat_decomp (k : String) (w : STree) :
    ∀ c : Children, lookupKey c k = some w →
      ∃ A B, flat c = A ++ (contrib k w ++ B)
        ∧ ∀ v, flat (setKey c k v) = A ++ (contrib k v ++ B)
  | .cnil, h => by simp [lookupKey] at h
  | .ccons k0 t rest, h => by
    rw [lookupKey] at h
    by_cases hk : k0 = k
    · rw [if_pos hk] at h
      injection h with h
      subst hk h
      refine ⟨[], flat rest, by simp [flat], ?_⟩
      intro v
      simp [setKey, flat]
    · rw [if_neg hk] at h
      obtain ⟨A, B, hAB, hset⟩ := lookup_some_flat_decomp k w rest h
      refine ⟨contrib k0 t ++ A, B, ?_, ?_⟩
      · simp only [flat, hAB, List.append_assoc]
      · intro v
        simp only [setKey, if_neg hk, flat, hset v, List.append_assoc]

/-- Permutation bookkeeping: replacing the middle part of a
concatenation by a permuted copy with one extra element moves that
element to the end. -/
theorem perm_middle_out {α : Type} (A Y B X : List α) (p : α)
    (h : X.Perm (Y ++ [p])) :
    (A ++ (X ++ B)).Perm ((A ++ (Y ++ B)) ++ [p]) := by
  have h1 : (A ++ (X ++ B)).Perm (A ++ ((Y ++ [p]) ++ B)) :=
    (h.append_right B).append_left A
  have h2 : ((Y ++ [p]) ++ B).Perm (Y ++ (B ++ [p])) := by
    rw [List.append_assoc]
    exact List.Perm.append_left Y List.perm_append_comm
  have h4 : A ++ (Y ++ (B ++ [p])) = (A ++ (Y ++ B)) ++ [p] := by
    simp [List.append_assoc]
  exact h4 ▸ (h1.trans (h2.append_left A))

/-- Inserting a path that is initial-segment-incomparable with every
present leaf path succeeds and adds exactly that leaf path (up to
position). -/
theorem insertParts_flat (s : String) :
    ∀ (parts : List String) (c : Children), parts ≠ [] →
      (∀ x ∈ flat c, lstarts x parts = false ∧ lstarts parts x = false) →
      ∃ c2, insertParts c parts s = some c2 ∧
        (flat c2).Perm (flat c ++ [parts])
  | [], _, hne, _ => absurd rfl hne
  | [last], c, _, hc => by
    cases hl : lookupKey c last with
    | none =>
      refine ⟨setKey c last (.leaf s), rfl, ?_⟩
      rw [setKey_flat_none last (.leaf s) c hl]
      simp only [contrib]
      exact List.Perm.refl _
    | some w =>
      obtain ⟨A, B, hAB, hset⟩ := lookup_some_flat_decomp last w c hl
      cases w with
      | leaf s0 =>
        have hmem : [last] ∈ flat c := mem_flat_of_lookup_leaf last s0 c hl
        have h2 := (hc [last] hmem).2
        rw [lstarts_refl] at h2
        exact absurd h2 (by simp)
      | node ch =>
        cases hch : flat ch with
        | nil =>
          refine ⟨setKey c last (.leaf s), rfl, ?_⟩
          rw [hset (.leaf s), hAB]
          simp only [contrib, hch, List.map_nil]
          exact perm_middle_out A [] B [[last]] [last] (by simp)
        | cons q0 rest0 =>
          have hmem : (last :: q0) ∈ flat c :=
            mem_flat_of_lookup_node last ch c hl q0
              (by rw [hch]; exact List.mem_cons_self q0 rest0)
          have h2 := (hc (last :: q0) hmem).2
          rw [lstarts_single] at h2
          exact absurd h2 (by simp)
  | part :: next :: rest, c, _, hc => by
    have hp' : (next :: rest) ≠ [] := by simp
    cases hl : lookupKey c part with
    | none =>
      obtain ⟨sub, hsub, hperm⟩ :=
        insertParts_flat s (next :: rest) .cnil hp' (by simp [flat])
      refine ⟨setKey c part (.node sub), ?_, ?_⟩
      · simp only [insertParts, hl, hsub, Option.map_some']
      · rw [setKey_flat_none part (.node sub) c hl]
        simp only [contrib]
        refine List.Perm.append_left (flat c) ?_
        have hm := hperm.map (fun q => part :: q)
        simp only [show flat Children.cnil = [] from rfl, List.nil_append,
          List.map_cons, List.map_nil] at hm
        exact hm
    | some w =>
      cases w with
      | leaf s0 =>
        have hmem : [part] ∈ flat c := mem_flat_of_lookup_leaf part s0 c hl
        have h1 := (hc [part] hmem).1
        rw [lstarts_single] at h1
        exact absurd h1 (by simp)
      | node ch =>
        obtain ⟨A, B, hAB, hset⟩ := lookup_some_flat_decomp part (.node ch) c hl
        have hargs : ∀ x ∈ flat ch,
            lstarts x (next :: rest) = false ∧
            lstarts (next :: rest) x = false := by
          intro x hx
          have h12 := hc (part :: x) (mem_flat_of_lookup_node part ch c hl x hx)
          constructor
          · have h1 := h12.1
            rwa [lstarts_cons] at h1
          · have h2 := h12.2
            rwa [lstarts_cons] at h2
        obtain ⟨sub, hsub, hperm⟩ := insertParts_flat s (next :: rest) ch hp' hargs
        refine ⟨setKey c part (.node sub), ?_, ?_⟩
        · simp only [insertParts, hl, hsub, Option.map_some']
        · rw [hset (.node sub), hAB]
          simp only [contrib]
          refine perm_middle_out A ((flat ch).map (fun q => part :: q)) B _
            (part :: next :: rest) ?_
          have hm := hperm.map (fun q => part :: q)
          simpa using hm

/-- The insertion loop over a conflict-free entry list builds a tree
whose leaf paths are, up to order, the present ones plus every entry
path. -/
theorem buildTreeAux_flat :
    ∀ (entries : List (List String × String)) (c : Children),
      (∀ e ∈ entries, e.1 ≠ []) →
      noConflicts (entries.map Prod.fst) = true →
      (∀ x ∈ flat c, ∀ e ∈ entries,
        lstarts x e.1 = false ∧ lstarts e.1 x = false) →
      ∃ c2, buildTreeAux c entries = some c2 ∧
        (flat c2).Perm (flat c ++ entries.map Prod.fst)
  | [], c, _, _, _ => ⟨c, rfl, by simp⟩
  | (parts, s) :: rest, c, hne, hconf, hc => by
    have hsplit := hconf
    simp only [List.map_cons, noConflicts, Bool.and_eq_true, List.all_eq_true] at hsplit
    have hconf' : noConflicts (rest.map Prod.fst) = true := hsplit.2
    have hhead : ∀ e ∈ rest,
        lstarts parts e.1 = false ∧ lstarts e.1 parts = false := by
      intro e he
      have h3 := hsplit.1 e.1 (List.mem_map.mpr ⟨e, he, rfl⟩)
      simp only [Bool.and_eq_true, Bool.not_eq_true'] at h3
      exact h3
    obtain ⟨c1, hins, hp1⟩ := insertParts_flat s parts c
      (hne (parts, s) (List.mem_cons_self _ _))
      (fun x hx => hc x hx (parts, s) (List.mem_cons_self _ _))
    have hc1 : ∀ x ∈ flat c1, ∀ e ∈ rest,
        lstarts x e.1 = false ∧ lstarts e.1 x = false := by
      intro x hx e he
      have hx' : x ∈ flat c ++ [parts] := hp1.mem_iff.mp hx
      rcases List.mem_append.mp hx' with hxc | hxp
      · exact hc x hxc e (List.mem_cons_of_mem _ he)
      · have hxe : x = parts := by simpa using hxp
        subst hxe
        exact hhead e he
    obtain ⟨c2, hbuild, hp2⟩ := buildTreeAux_flat rest c1
      (fun e he => hne e (List.mem_cons_of_mem _ he)) hconf' hc1
    refine ⟨c2, ?_, ?_⟩
    · simp only [buildTreeAux, hins]
      exact hbuild
    · refine hp2.trans ?_
      refine (hp1.append_right (rest.map Prod.fst)).trans ?_
      rw [List.append_assoc, List.singleton_append, List.map_cons]

/-- Claim C2: for a flat mapping whose split paths are pairwise
initial-segment-incomparable (unique, none a prefix of another),
`generate_tree_structure` succeeds, the tree has exactly as many leaves
as the mapping has entries, and joining the depth-first leaf segment
paths with the separator reproduces exactly the original key set. -/
theorem claim2_tree_build (summaries : List (String × String))
    (h : noConflicts (summaries.map (fun e => pathParts e.1)) = true) :
    ∃ c, generate_tree_structure summaries = some c
      ∧ countLeaves c = summaries.length
      ∧ ∀ k, (k ∈ (flat c).map joinParts ↔ k ∈ summaries.map Prod.fst) := by
  have hmap : (summaries.map (fun e => (pathParts e.1, e.2))).map Prod.fst =
      summaries.map (fun e => pathParts e.1) := by
    simp [List.map_map, Function.comp]
  obtain ⟨c, hbuild, hperm⟩ := buildTreeAux_flat
    (summaries.map (fun e => (pathParts e.1, e.2))) .cnil
    (by
      intro e he
      obtain ⟨x, _, rfl⟩ := List.mem_map.mp he
      exact pathParts_ne_nil x.1)
    (by rw [hmap]; exact h)
    (by intro x hx; simp [flat] at hx)
  rw [show flat Children.cnil = [] from rfl, List.nil_append, hmap] at hperm
  refine ⟨c, ?_, ?_, ?_⟩
  · rw [generate_tree_structure]
    exact hbuild
  · rw [countLeaves_eq_length, hperm.length_eq, List.length_map]
  · intro k
    rw [(hperm.map joinParts).mem_iff, List.map_map]
    rw [List.map_congr_left (fun e _ => by
      show (joinParts ∘ fun e => pathParts e.1) e = Prod.fst e
      simp [Function.comp, joinParts_pathParts])]

/-- Witness for claim C2 on the two-entry mapping of the specification's
end-to-end example. -/
theorem claim2_witness :
    noConflicts ([("a.py", "descA"), ("sub/b.py", "descB")].map
      (fun e => pathParts e.1)) = true
    ∧ ∃ c, generate_tree_structure [("a.py", "descA"), ("sub/b.py", "descB")] =
          some c
        ∧ countLeaves c = [("a.py", "descA"), ("sub/b.py", "descB")].length
        ∧ ∀ k, (k ∈ (flat c).map joinParts ↔
            k ∈ [("a.py", "descA"), ("sub/b.py", "descB")].map Prod.fst) :=
  ⟨by decide, claim2_tree_build [("a.py", "descA"), ("sub/b.py", "descB")] (by decide)⟩

/-- Witness for claim C8 at a concrete file with a non-text extension. -/
theorem claim8_witness :
    (candidate [] [] "photo.jpg" = true ↔
      (should_ignore [] (relPath [] "photo.jpg") = false ∧
        pyToLower (pathSuffix "photo.jpg") ∈ text_extensions))
    ∧ (candidate [] [] "photo.jpg" = false →
        processFile [] (fun _ _ => some "S") [] "photo.jpg" (some "data") [] = []) :=
  claim8_candidate_iff [] [] "photo.jpg" (fun _ _ => some "S") (some "data") []
